import Mathlib

/-!
Verification of the taxonomy-resolution core of `Afanc/autodatabase/taxadd.py`.

The Python module is shallowly embedded below: dataframe rows become Lean
structures or lists of fields, pure string manipulation becomes functions on
`List Char`, the regex substitution of `editFasta` becomes a character-level
scanner, python runtime errors become `Except`, and the file-system effects of
the final write step of `taxadd_Main` become an explicit small-step semantics
over a store from paths to file contents.
-/

set_option autoImplicit false

namespace Taxadd

/-- A row of the names table as consumed by `search_taxon`/`addTaxon`:
column 0 (taxid, integer), column 1 (name), column 2 (unique name),
column 3 (name class).  The trailing bookkeeping column of the dataframe is
not consulted by any of the resolver functions and is omitted here. -/
structure NamesEntry where
  taxid : Int
  name : String
  uniqueName : String
  nameClass : String
deriving DecidableEq

/-- A row of the nodes table: column 0 (taxid), column 1 (parent taxid, kept
as text because `addTaxon` receives it as a string), column 2 (rank), and the
remaining NCBI metadata columns carried opaquely. -/
structure NodesEntry where
  taxid : Int
  parentTaxid : String
  rank : String
  meta : List String
deriving DecidableEq

/-- Python `str.replace(a, b)` specialised to single characters, as used by
`taxname.replace("_", " ")` on line 80 of taxadd.py. -/
def replaceChar (a b : Char) (l : List Char) : List Char :=
  l.map (fun c => if c = a then b else c)

/-- Underscore-to-space normalization performed at the top of `getTaxidNames`. -/
def pyUnderscoreToSpace (s : String) : String :=
  ⟨replaceChar '_' ' ' s.data⟩

/-- Embeds `search_taxon` (taxadd.py lines 60-72): filter the names dataframe
on column 1 equal to `taxname`; if the filtered frame is empty return `None`,
otherwise return `str` of column 0 of its first row.  Note the filter tests
only column 1 (the name); the name-class column is not consulted. -/
def search_taxon (taxname : String) (names_df : List NamesEntry) : Option String :=
  match names_df.find? (fun r => r.name == taxname) with
  | none => none
  | some r => some (toString r.taxid)

/-- Embeds `getTaxidNames` (taxadd.py lines 75-136): replace underscores with
spaces, then call `search_taxon`.  The entire taxadd block (lines 92-134),
which would have synthesized missing taxa via `addTaxon`, is a bare string
literal in the source ("IN DEVELOPMENT"), i.e. dead code: on a failed lookup
the function simply returns `None` with both tables unchanged. -/
def getTaxidNames (taxname : String) (motherClade : Option String)
    (names_df : List NamesEntry) (nodes_df : List NodesEntry) :
    Option String × List NamesEntry × List NodesEntry :=
  let t := pyUnderscoreToSpace taxname
  let _ := motherClade
  (search_taxon t names_df, names_df, nodes_df)

/-- True when the list starts with a character other than a newline: the
lookahead used to decide whether the regex `(>.+)` can start matching at a
`>` just consumed. -/
def headNonNewline : List Char → Bool
  | [] => false
  | c :: _ => c != '\n'

/-- Character-level scanner equivalent to Python `re.sub(r"(>.+)", r"\1" + suffix, s)`
(taxadd.py line 22).  The Boolean flag records whether the scanner is inside a
match of `>.+`: a match starts at a `>` followed by at least one non-newline
character, extends greedily to the end of the line, and on leaving the match
(at a newline or at the end of input) the replacement emits the matched text
followed by `suffix`.  Text outside matches is copied unchanged. -/
def reSubAux (suffix : List Char) : Bool → List Char → List Char
  | true, [] => suffix
  | false, [] => []
  | true, c :: rest =>
      if c = '\n' then suffix ++ '\n' :: reSubAux suffix false rest
      else c :: reSubAux suffix true rest
  | false, c :: rest =>
      if c = '>' ∧ headNonNewline rest then c :: reSubAux suffix true rest
      else c :: reSubAux suffix false rest

/-- Per-line effect of the substitution: a line that contains `>` at any
position other than its last character gets `suffix` appended at its end;
every other line (including a bare `>`) is unchanged. -/
def editLineChars (suffix : List Char) (l : List Char) : List Char :=
  if '>' ∈ l.dropLast then l ++ suffix else l

/-- Join parts with a separator sequence (used with a newline to rebuild file
text from lines, and with tab-pipe-tab in the dump writer). -/
def joinSep (sep : List Char) : List (List Char) → List Char
  | [] => []
  | [p] => p
  | p :: q :: ps => p ++ sep ++ joinSep sep (q :: ps)

/-- Split on a separator character; mirrors Python `str.split` for a
one-character separator (always returns at least one part). -/
def splitSep (sep : Char) : List Char → List (List Char)
  | [] => [[]]
  | c :: t =>
    if c = sep then [] :: splitSep sep t
    else
      match splitSep sep t with
      | [] => [[c]]
      | f :: r => (c :: f) :: r

/-- Python `os.path.basename`: the part of the path after the last slash. -/
def pyBasename (p : String) : String :=
  ⟨(splitSep '/' p.data).getLastD []⟩

/-- The part of the list before the first occurrence of the (nonempty)
separator sequence `sep`; mirrors Python `s.split(sep)[0]`. -/
def takeUntilSub (sep : List Char) : List Char → List Char
  | [] => []
  | c :: rest => if sep.isPrefixOf (c :: rest) then [] else c :: takeUntilSub sep rest

/-- True when `sep` occurs as a contiguous subsequence. -/
def hasSub (sep : List Char) : List Char → Bool
  | [] => false
  | c :: rest => sep.isPrefixOf (c :: rest) || hasSub sep rest

/-- Python `path.basename(infasta).split(".gz")[0]` from taxadd.py line 15. -/
def gzSplitHead (s : String) : String :=
  ⟨takeUntilSub ['.', 'g', 'z'] s.data⟩

/-- The literal appended to each matched header:
`|kraken:taxid|<taxid>|<taxname>`. -/
def krakenSuffix (taxid taxname : String) : List Char :=
  ("|kraken:taxid|" ++ taxid ++ "|" ++ taxname).data

/-- Embeds `editFasta` (taxadd.py lines 9-28).  The gzip/plain distinction
only affects how the text is read ("rt" mode decompresses transparently), so
the already-decoded text arrives here as `fastaData`.  The function chooses
the destination name (`<taxid>_<basename>` with, for a `.gz` source, the
basename truncated at its first `.gz` occurrence), applies the regex
substitution to the whole text, and returns 0.  Result components: the
destination path, the edited text written there, and the Python return
value. -/
def editFasta (infasta outdir taxid taxname : String) (fastaData : String) :
    String × String × Int :=
  let fasta_file : String :=
    if List.isSuffixOf ['.', 'g', 'z'] infasta.data then
      outdir ++ "/" ++ taxid ++ "_" ++ gzSplitHead (pyBasename infasta)
    else
      outdir ++ "/" ++ taxid ++ "_" ++ pyBasename infasta
  let fasta_edit : String := ⟨reSubAux (krakenSuffix taxid taxname) false fastaData.data⟩
  (fasta_file, fasta_edit, 0)

/-- Python runtime errors that the embedded functions can raise. -/
inductive PyRunError where
  | unboundLocal
  | valueError
deriving DecidableEq

/-- Embeds `addTaxon` (taxadd.py lines 31-57).  Line 38 evaluates
`max(names_df[0])` (a `ValueError` on an empty column); line 39 then evaluates
`taxid = max_taxid + (10**(len(taxid)-1))`, reading the local variable `taxid`
before any assignment to it, which raises `UnboundLocalError`.  The remainder
of the body (rank heuristic and the row appends) is the unreachable
continuation, written out after the failing read. -/
def addTaxon (taxname : String) (motherCladeTaxid : String)
    (names_df : List NamesEntry) (nodes_df : List NodesEntry) :
    Except PyRunError (String × List NamesEntry × List NodesEntry) := do
  let max_taxid ← match (names_df.map (fun r => r.taxid)).max? with
    | none => Except.error PyRunError.valueError
    | some m => pure m
  let taxidLocal : Option Int := none
  let taxidLen ← match taxidLocal with
    | none => Except.error PyRunError.unboundLocal
    | some v => pure (toString v).length
  let taxid : Int := max_taxid + 10 ^ (taxidLen - 1)
  let rank : String :=
    if taxname.data.count ' ' > 1 then "subspecies"
    else if taxname.data.count ' ' = 1 then "species"
    else "no rank"
  let names2 := names_df ++ [⟨taxid, taxname, "", "scientific name"⟩]
  let nodes2 := nodes_df ++
    [⟨taxid, motherCladeTaxid, rank, ["", "1", "1", "1", "1", "1", "1", "1", "1", ""]⟩]
  pure (toString taxid, names2, nodes2)

/-- The whitespace set of Python `str.strip`. -/
def pySpaceChar (c : Char) : Bool :=
  c = ' ' || c = '\t' || c = '\n' || c = '\r' || c = '\x0b' || c = '\x0c'

/-- Python `str.strip()`: remove leading and trailing whitespace. -/
def pyStripChars (l : List Char) : List Char :=
  ((l.dropWhile pySpaceChar).reverse.dropWhile pySpaceChar).reverse

/-- One raw pipe-delimited field as loaded by `readDmp` (taxadd.py lines
174-183, `pd.read_csv(..., sep="|")` followed by a whitespace strip of the
text columns): an empty raw field is missing data (pandas NaN, here `none`);
any other field is kept and stripped.  For the all-integer columns of a
well-formed dump, pandas stores numbers whose later `str` rendering equals
the stripped text, so the stripped text is used uniformly. -/
def parseField (raw : List Char) : Option (List Char) :=
  if raw = [] then none else some (pyStripChars raw)

/-- Parse one dump line: split on the pipe character, then parse each raw
field. -/
def parseDmpLine (line : List Char) : List (Option (List Char)) :=
  (splitSep '|' line).map parseField

/-- Embeds `readDmp` on the text of a width-consistent dump file: split into
lines, skip blank lines (pandas `skip_blank_lines`), parse each line. -/
def readDmpText (text : List Char) : List (List (Option (List Char))) :=
  ((splitSep '\n' text).filter (fun l => !l.isEmpty)).map parseDmpLine

/-- Python `str(value)` of a stored field: a missing value renders as "nan",
text renders as itself. -/
def fieldStr : Option (List Char) → List Char
  | none => ['n', 'a', 'n']
  | some s => s

/-- One output row of `writeDmp` (taxadd.py lines 155-171): render every
field with `str`, drop the last one, append an empty trailing field, and join
with tab-pipe-tab. -/
def writeDmpRow (row : List (Option (List Char))) : List Char :=
  joinSep ['\t', '|', '\t'] ((row.map fieldStr).dropLast ++ [[]])

/-- Embeds the row-writing logic of `writeDmp`: one joined row per line, each
terminated by a newline (Python `print`). -/
def writeDmpText (tbl : List (List (Option (List Char)))) : List Char :=
  (tbl.map writeDmpRow).foldr (fun l acc => l ++ '\n' :: acc) []

/-- The in-memory state threaded through the per-file loop of `taxadd_Main`
(taxadd.py lines 186-221): the two dump tables, the scaffold-to-taxid
defaultdict (keyed by the `Option String` returned by `getTaxidNames` --
Python happily uses `None` as a dict key), the fasta bookkeeping dict, and
the rewritten fastas produced so far (destination path and edited text). -/
structure TaxState where
  names : List NamesEntry
  nodes : List NodesEntry
  scaffoldMap : List (Option String × List String)
  fastaDict : List (String × List String)
  editedFastas : List (String × String)
deriving DecidableEq

/-- Appending to a `defaultdict(list)` entry: extend the list of an existing
key in place, or append a fresh key at the end (Python dicts preserve
insertion order). -/
def ddExtend {K V : Type} [DecidableEq K] (m : List (K × List V)) (k : K) (vs : List V) :
    List (K × List V) :=
  match m with
  | [] => [(k, vs)]
  | (k2, l) :: r => if k2 = k then (k2, l ++ vs) :: r else (k2, l) :: ddExtend r k vs

/-- Embeds one iteration of the inner loop of `taxadd_Main` (taxadd.py lines
204-221) for a single fasta file: record the file under `fastaDict[taxname]`,
resolve the taxid, extend `scaffold_taxid_dict[taxid]` with the scaffold ids
(this happens BEFORE the `taxid == None` check in the source), then `continue`
when the taxid is `None`, else rewrite the fasta via `editFasta`.  The
scaffold ids and the file text are parameters because they are read from the
file system by external collaborators. -/
def processFasta (outdir taxname : String) (motherClade : Option String)
    (infasta : String) (fastaContent : String) (scaffoldIds : List String)
    (st : TaxState) : TaxState :=
  let st1 := { st with fastaDict := ddExtend st.fastaDict taxname [infasta] }
  let r := getTaxidNames taxname motherClade st1.names st1.nodes
  let st2 := { st1 with
    names := r.2.1
    nodes := r.2.2
    scaffoldMap := ddExtend st1.scaffoldMap r.1 scaffoldIds }
  match r.1 with
  | none => st2
  | some tid =>
    let e := editFasta infasta outdir tid taxname fastaContent
    { st2 with editedFastas := st2.editedFastas ++ [(e.1, e.2.1)] }

/-- Python rendering of the dict key inside the f-string of `writeSeq2taxid`:
`None` prints as the four characters "None". -/
def pyStrOfOptTaxid : Option String → String
  | none => "None"
  | some s => s

/-- Embeds `writeSeq2taxid` (taxadd.py lines 139-146): for every key of the
scaffold dict, in order, one output line per scaffold id consisting of the
scaffold id, a tab, and the rendered key. -/
def writeSeq2taxidLines (m : List (Option String × List String)) : List String :=
  (m.map (fun kv => kv.2.map (fun sid => sid ++ "\t" ++ pyStrOfOptTaxid kv.1))).flatten

/-- Python `"/".join(p.split("/")[:-1])` from taxadd.py line 224. -/
def pyDirname (p : String) : String :=
  ⟨joinSep ['/'] ((splitSep '/' p.data).dropLast)⟩

/-- A file-system operation performed by the final write step of
`taxadd_Main`. -/
inductive FsOp where
  | rename (src dst : String)
  | write (path content : String)

/-- Effect of one operation on a store from paths to file contents:
`rename` makes the content appear at the destination and disappear at the
source; `write` creates or overwrites the target. -/
def applyOp (fs : String → Option String) : FsOp → String → Option String
  | FsOp.rename src dst => fun p => if p = dst then fs src else if p = src then none else fs p
  | FsOp.write pth c => fun p => if p = pth then some c else fs p

/-- Destination of the names-dump rename (taxadd.py line 225). -/
def namesOldPath (names_path : String) : String :=
  pyDirname names_path ++ "/names.dmp.old"

/-- Destination of the nodes-dump rename (line 226; note the directory comes
from `names_path`). -/
def nodesOldPath (names_path : String) : String :=
  pyDirname names_path ++ "/nodes.dmp.old"

/-- Path of the freshly written names dump (inside `writeDmp`). -/
def newNamesPath (names_path : String) : String :=
  pyDirname names_path ++ "/names.dmp"

/-- Path of the freshly written nodes dump (inside `writeDmp`). -/
def newNodesPath (names_path : String) : String :=
  pyDirname names_path ++ "/nodes.dmp"

/-- Path of the freshly written scaffold map (inside `writeSeq2taxid`). -/
def seqidMapPath (names_path : String) : String :=
  pyDirname names_path ++ "/seqid2taxid.map"

/-- The dump-file write step of `taxadd_Main` (taxadd.py lines 223-232), in
source order: rename the two original dumps to their `.old` names, then write
the new names dump, the new nodes dump, and the seqid map. -/
def dumpWriteOps (names_path nodes_path newNames newNodes mapContent : String) : List FsOp :=
  [FsOp.rename names_path (namesOldPath names_path),
   FsOp.rename nodes_path (nodesOldPath names_path),
   FsOp.write (newNamesPath names_path) newNames,
   FsOp.write (newNodesPath names_path) newNodes,
   FsOp.write (seqidMapPath names_path) mapContent]

/-- All intermediate file-system states of the write step, initial state
included. -/
def dumpWriteStates (fs0 : String → Option String)
    (names_path nodes_path newNames newNodes mapContent : String) :
    List (String → Option String) :=
  List.scanl applyOp fs0 (dumpWriteOps names_path nodes_path newNames newNodes mapContent)

end Taxadd

namespace Taxadd

/-- C7: the claim says `addTaxon` completes without error on every nonempty
names table and allocates a fresh taxid.  In fact line 39 of taxadd.py reads
the local `taxid` before assignment, so every call on a nonempty table raises
`UnboundLocalError`; the allocation never happens. -/
theorem addTaxon_always_raises_unboundLocal (taxname motherCladeTaxid : String)
    (r : NamesEntry) (names_df : List NamesEntry) (nodes_df : List NodesEntry) :
    addTaxon taxname motherCladeTaxid (r :: names_df) nodes_df =
      Except.error PyRunError.unboundLocal := rfl

/-- C1: for the names table containing only genus "Foo", the claim says
`resolve("Foo_bar", None, ...)` allocates a fresh taxid and appends one names
row and one nodes row of rank "species".  The code performs no synthesis at
all (the taxadd block is a dead string literal): it returns `None` and leaves
both tables unchanged. -/
theorem getTaxidNames_foo_bar_no_synthesis :
    getTaxidNames "Foo_bar" none [⟨1, "Foo", "", "scientific name"⟩] [] =
      (none, [⟨1, "Foo", "", "scientific name"⟩], []) := by decide

/-- C3 counterexample: the claim says the resolver returns the taxid of the
first row whose name matches and whose name class is "scientific name".  With
a "genbank common name" row for "Homo sapiens" listed before the scientific
name row (9606), the code returns "5", the taxid of the non-scientific row. -/
theorem getTaxidNames_ignores_name_class :
    getTaxidNames "Homo_sapiens" none
        [⟨5, "Homo sapiens", "", "genbank common name"⟩,
         ⟨9606, "Homo sapiens", "", "scientific name"⟩] [] =
      (some "5",
       [⟨5, "Homo sapiens", "", "genbank common name"⟩,
        ⟨9606, "Homo sapiens", "", "scientific name"⟩], []) ∧
    (some "5" : Option String) ≠ some "9606" := by decide

/-- C3 (amended): `getTaxidNames` replaces underscores with spaces and returns
the taxid (as a string) of the first names-table row whose name field equals
the normalized name, irrespective of its name class, leaving both tables
unchanged. -/
theorem getTaxidNames_first_name_match (taxname : String) (mother : Option String)
    (pre post : List NamesEntry) (r : NamesEntry) (nodes : List NodesEntry)
    (hpre : ∀ x ∈ pre, x.name ≠ pyUnderscoreToSpace taxname)
    (hr : r.name = pyUnderscoreToSpace taxname) :
    getTaxidNames taxname mother (pre ++ r :: post) nodes =
      (some (toString r.taxid), pre ++ r :: post, nodes) := by
  have hfind : (pre ++ r :: post).find? (fun x => x.name == pyUnderscoreToSpace taxname)
      = some r := by
    induction pre with
    | nil => simp [List.find?_cons, hr]
    | cons a as ih =>
      have ha : ¬ (a.name == pyUnderscoreToSpace taxname) = true := by
        simpa using hpre a (by simp)
      simpa [List.find?_cons, ha] using ih (fun x hx => hpre x (by simp [hx]))
  simp [getTaxidNames, search_taxon, hfind]

/-- Witness for C3 (amended) at the single-row table from the spec example. -/
theorem getTaxidNames_first_name_match_witness :
    getTaxidNames "Homo_sapiens" none [⟨9606, "Homo sapiens", "", "scientific name"⟩] [] =
      (some (toString (9606 : Int)), [⟨9606, "Homo sapiens", "", "scientific name"⟩], []) :=
  getTaxidNames_first_name_match "Homo_sapiens" none [] []
    ⟨9606, "Homo sapiens", "", "scientific name"⟩ [] (by decide) (by decide)

/-- C4: when neither "Foo bar baz" nor the genus "Foo" occurs in the names
table, `resolve("Foo_bar_baz", None, ...)` returns `None` and both tables
unchanged: no rows are appended on a failed resolution. -/
theorem getTaxidNames_unresolvable (names : List NamesEntry) (nodes : List NodesEntry)
    (hname : ∀ r ∈ names, r.name ≠ "Foo bar baz")
    (hgenus : ∀ r ∈ names, r.name ≠ "Foo") :
    getTaxidNames "Foo_bar_baz" none names nodes = (none, names, nodes) := by
  have hnorm : pyUnderscoreToSpace "Foo_bar_baz" = "Foo bar baz" := by decide
  have hfind : names.find? (fun x => x.name == pyUnderscoreToSpace "Foo_bar_baz") = none := by
    rw [List.find?_eq_none]
    intro x hx
    simpa [hnorm] using hname x hx
  simp [getTaxidNames, search_taxon, hfind]

/-- Witness for C4 at a concrete one-row table lacking both names. -/
theorem getTaxidNames_unresolvable_witness :
    getTaxidNames "Foo_bar_baz" none [⟨1, "Bar", "", "scientific name"⟩] [] =
      (none, [⟨1, "Bar", "", "scientific name"⟩], []) :=
  getTaxidNames_unresolvable [⟨1, "Bar", "", "scientific name"⟩] []
    (by decide) (by decide)

/-- Inside a match, a newline-free tail is consumed whole and the suffix is
emitted at its end. -/
theorem reSubAux_true_no_newline (suffix : List Char) (t : List Char) (h : '\n' ∉ t) :
    reSubAux suffix true t = t ++ suffix := by
  induction t with
  | nil => rfl
  | cons c rest ih =>
    simp only [List.mem_cons, not_or] at h
    have hc : ¬ c = '\n' := fun e => h.1 e.symm
    simp [reSubAux, hc, ih h.2]

/-- Inside a match, a newline-free segment followed by a newline is consumed,
the suffix is emitted before the newline, and scanning resumes outside any
match. -/
theorem reSubAux_true_line (suffix : List Char) (t rest : List Char) (h : '\n' ∉ t) :
    reSubAux suffix true (t ++ '\n' :: rest) =
      t ++ suffix ++ '\n' :: reSubAux suffix false rest := by
  induction t with
  | nil => simp [reSubAux]
  | cons c t2 ih =>
    simp only [List.mem_cons, not_or] at h
    have hc : ¬ c = '\n' := fun e => h.1 e.symm
    simp [reSubAux, hc, ih h.2]

/-- Prepending a non-`>` character commutes with the per-line edit. -/
theorem editLineChars_cons_ne (suffix : List Char) (c : Char) (t : List Char)
    (hc : c ≠ '>') :
    editLineChars suffix (c :: t) = c :: editLineChars suffix t := by
  cases t with
  | nil => simp [editLineChars]
  | cons d t2 =>
    by_cases h : '>' ∈ (d :: t2).dropLast
    · simp [editLineChars, List.dropLast, List.mem_cons, Ne.symm hc, h]
    · simp [editLineChars, List.dropLast, List.mem_cons, Ne.symm hc, h]

/-- The scanner on a single newline-free final line behaves as the per-line
edit. -/
theorem reSubAux_false_line_only (suffix : List Char) (l : List Char) (h : '\n' ∉ l) :
    reSubAux suffix false l = editLineChars suffix l := by
  induction l with
  | nil => simp [reSubAux, editLineChars]
  | cons c t ih =>
    simp only [List.mem_cons, not_or] at h
    have ht : '\n' ∉ t := h.2
    by_cases hgt : c = '>'
    · subst hgt
      cases t with
      | nil => simp [reSubAux, headNonNewline, editLineChars]
      | cons d t2 =>
        have hd : d ≠ '\n' := by
          intro e
          exact ht (by simp [e])
        have ht2 : '\n' ∉ t2 := fun e => ht (by simp [e])
        simp [reSubAux, headNonNewline, hd, reSubAux_true_no_newline suffix t2 ht2,
          editLineChars, List.dropLast]
    · simp [reSubAux, hgt, ih ht, editLineChars_cons_ne suffix c t hgt]

/-- The scanner on a newline-free line followed by a newline performs the
per-line edit on the line and continues independently on the rest. -/
theorem reSubAux_false_line (suffix : List Char) (l rest : List Char) (h : '\n' ∉ l) :
    reSubAux suffix false (l ++ '\n' :: rest) =
      editLineChars suffix l ++ '\n' :: reSubAux suffix false rest := by
  induction l with
  | nil => simp [reSubAux, editLineChars]
  | cons c t ih =>
    simp only [List.mem_cons, not_or] at h
    have ht : '\n' ∉ t := h.2
    by_cases hgt : c = '>'
    · subst hgt
      cases t with
      | nil => simp [reSubAux, headNonNewline, editLineChars]
      | cons d t2 =>
        have hd : d ≠ '\n' := by
          intro e
          exact ht (by simp [e])
        have ht2 : '\n' ∉ t2 := fun e => ht (by simp [e])
        simp [reSubAux, headNonNewline, hd, reSubAux_true_line suffix t2 rest ht2,
          editLineChars, List.dropLast]
    · simp [reSubAux, hgt, ih ht, editLineChars_cons_ne suffix c t hgt]

/-- The regex substitution acts independently on each newline-separated line,
applying the per-line edit to every line. -/
theorem reSubAux_false_join (suffix : List Char) (lines : List (List Char))
    (h : ∀ l ∈ lines, '\n' ∉ l) :
    reSubAux suffix false (joinSep ['\n'] lines) =
      joinSep ['\n'] (lines.map (editLineChars suffix)) := by
  induction lines with
  | nil => rfl
  | cons l ls ih =>
    cases ls with
    | nil => simpa [joinSep] using reSubAux_false_line_only suffix l (h l (by simp))
    | cons l2 ls2 =>
      have h1 : '\n' ∉ l := h l (by simp)
      have h2 : ∀ x ∈ l2 :: ls2, '\n' ∉ x := fun x hx => h x (by simp [hx])
      have hjoin : joinSep ['\n'] (l :: l2 :: ls2) =
          l ++ '\n' :: joinSep ['\n'] (l2 :: ls2) := by simp [joinSep]
      rw [hjoin, reSubAux_false_line suffix l _ h1, ih h2]
      simp [joinSep]

/-- Splitting always yields at least one part. -/
theorem splitSep_ne_nil (sep : Char) (l : List Char) : splitSep sep l ≠ [] := by
  cases l with
  | nil => simp [splitSep]
  | cons c t =>
    by_cases h : c = sep
    · simp [splitSep, h]
    · rcases e : splitSep sep t with _ | ⟨f, r⟩ <;> simp [splitSep, h, e]

/-- Splitting a text of the form `xs ++ sep :: ys` with separator-free `xs`
peels off `xs` as the first part. -/
theorem splitSep_append_sep (sep : Char) (xs ys : List Char) (h : sep ∉ xs) :
    splitSep sep (xs ++ sep :: ys) = xs :: splitSep sep ys := by
  induction xs with
  | nil => simp [splitSep]
  | cons c t ih =>
    simp only [List.mem_cons, not_or] at h
    have hcs : ¬ c = sep := fun e => h.1 e.symm
    have ih2 := ih h.2
    simp [splitSep, hcs, ih2]

/-- Splitting a separator-free text yields that text as the only part. -/
theorem splitSep_no_sep (sep : Char) (xs : List Char) (h : sep ∉ xs) :
    splitSep sep xs = [xs] := by
  induction xs with
  | nil => simp [splitSep]
  | cons c t ih =>
    simp only [List.mem_cons, not_or] at h
    have hcs : ¬ c = sep := fun e => h.1 e.symm
    simp [splitSep, hcs, ih h.2]

/-- Splitting on newlines inverts joining newline-free lines. -/
theorem splitSep_joinSep (lines : List (List Char)) (hne : lines ≠ [])
    (h : ∀ l ∈ lines, '\n' ∉ l) :
    splitSep '\n' (joinSep ['\n'] lines) = lines := by
  induction lines with
  | nil => exact absurd rfl hne
  | cons l ls ih =>
    cases ls with
    | nil => simpa [joinSep] using splitSep_no_sep '\n' l (h l (by simp))
    | cons l2 ls2 =>
      have h1 : '\n' ∉ l := h l (by simp)
      have h2 : ∀ x ∈ l2 :: ls2, '\n' ∉ x := fun x hx => h x (by simp [hx])
      have hjoin : joinSep ['\n'] (l :: l2 :: ls2) =
          l ++ '\n' :: joinSep ['\n'] (l2 :: ls2) := by simp [joinSep]
      rw [hjoin, splitSep_append_sep '\n' l _ h1, ih (by simp) h2]

/-- C6 counterexample: on the two-line input consisting of a bare `>` header
and the sequence line `AC>GT`, the code leaves the header unsuffixed and
instead appends the suffix to the sequence line, so the output differs from
the one the claim prescribes (suffix on the header line, sequence line
untouched). -/
theorem editFasta_regex_counterexample :
    (editFasta "x.fa" "out" "9606" "Homo sapiens" ">\nAC>GT").2.1 =
      ">\nAC>GT|kraken:taxid|9606|Homo sapiens" ∧
    (">\nAC>GT|kraken:taxid|9606|Homo sapiens" : String) ≠
      ">|kraken:taxid|9606|Homo sapiens\nAC>GT" := by decide

/-- C6 (amended): the rewrite appends `|kraken:taxid|taxid|taxname` to
exactly those lines that contain `>` at a position other than their last
character -- wherever in the line that `>` occurs, header or not -- and
leaves every other line (including a bare `>`) byte-identical. -/
theorem editFasta_linewise (infasta outdir taxid taxname : String)
    (lines : List (List Char)) (h : ∀ l ∈ lines, '\n' ∉ l) :
    (editFasta infasta outdir taxid taxname ⟨joinSep ['\n'] lines⟩).2.1 =
      ⟨joinSep ['\n'] (lines.map (editLineChars (krakenSuffix taxid taxname)))⟩ := by
  show String.mk _ = String.mk _
  exact congrArg String.mk (reSubAux_false_join (krakenSuffix taxid taxname) lines h)

/-- Witness for C6 (amended) on a two-record header/sequence example. -/
theorem editFasta_linewise_witness :
    (editFasta "s.fa" "wd" "10" "Foo bar" ⟨joinSep ['\n'] [">r1 x".data, "ACGT".data]⟩).2.1 =
      ⟨joinSep ['\n'] ([">r1 x".data, "ACGT".data].map
        (editLineChars (krakenSuffix "10" "Foo bar")))⟩ :=
  editFasta_linewise "s.fa" "wd" "10" "Foo bar" [">r1 x".data, "ACGT".data] (by decide)

/-- C10: a header line consisting of only the character `>` is left
unmodified by the rewrite, because the pattern `(>.+)` requires at least one
character after the `>`: the corresponding output line is still the bare
`>`. -/
theorem editFasta_bare_gt_unchanged (infasta outdir taxid taxname : String)
    (lines : List (List Char)) (i : Nat) (hi : i < lines.length)
    (h : ∀ l ∈ lines, '\n' ∉ l)
    (hsuffix : '\n' ∉ krakenSuffix taxid taxname)
    (hline : lines.get ⟨i, hi⟩ = ['>']) :
    ∃ hj : i < (splitSep '\n'
        (editFasta infasta outdir taxid taxname ⟨joinSep ['\n'] lines⟩).2.1.data).length,
      (splitSep '\n'
        (editFasta infasta outdir taxid taxname ⟨joinSep ['\n'] lines⟩).2.1.data).get
          ⟨i, hj⟩ = ['>'] := by
  have hmap : ∀ l ∈ lines.map (editLineChars (krakenSuffix taxid taxname)), '\n' ∉ l := by
    intro l hl
    rcases List.mem_map.mp hl with ⟨x, hx, rfl⟩
    have hx2 := h x hx
    unfold editLineChars
    split
    · intro hmem
      rcases List.mem_append.mp hmem with h1 | h2
      · exact hx2 h1
      · exact hsuffix h2
    · exact hx2
  have hne : lines ≠ [] := by
    intro e
    rw [e] at hi
    exact absurd hi (by simp)
  have hres : (editFasta infasta outdir taxid taxname ⟨joinSep ['\n'] lines⟩).2.1.data =
      joinSep ['\n'] (lines.map (editLineChars (krakenSuffix taxid taxname))) :=
    reSubAux_false_join (krakenSuffix taxid taxname) lines h
  rw [hres, splitSep_joinSep _ (by simpa using hne) hmap]
  refine ⟨by simpa using hi, ?_⟩
  rw [List.get_map, hline]
  rfl

/-- Witness for C10 with the bare `>` as the first of two lines. -/
theorem editFasta_bare_gt_unchanged_witness :
    ∃ hj : 0 < (splitSep '\n'
        (editFasta "x.fa" "out" "7" "T" ⟨joinSep ['\n'] [['>'], "AC".data]⟩).2.1.data).length,
      (splitSep '\n'
        (editFasta "x.fa" "out" "7" "T" ⟨joinSep ['\n'] [['>'], "AC".data]⟩).2.1.data).get
          ⟨0, hj⟩ = ['>'] :=
  editFasta_bare_gt_unchanged "x.fa" "out" "7" "T" [['>'], "AC".data] 0
    (by decide) (by decide) (by decide) (by decide)

/-- Appending ".gz" to a nonempty list that does not start with ".gz" cannot
create a ".gz" at the front: the three leading characters are unchanged (or,
for lists of length one or two, the alignment forces a mismatch inside
".gz"). -/
theorem gz_isPrefixOf_append (c : Char) (t : List Char)
    (hl : List.isPrefixOf ['.', 'g', 'z'] (c :: t) = false) :
    List.isPrefixOf ['.', 'g', 'z'] ((c :: t) ++ ['.', 'g', 'z']) = false := by
  match t with
  | [] =>
    have h1 : ('g' == '.') = false := by decide
    simp [List.isPrefixOf, h1]
  | [d] =>
    have h1 : ('z' == '.') = false := by decide
    simp [List.isPrefixOf, h1]
  | d :: e :: t3 =>
    simpa [List.isPrefixOf] using hl

/-- When ".gz" does not occur in `stem`, Python
`(stem + ".gz").split(".gz")[0]` returns `stem`. -/
theorem takeUntilSub_gz (stem : List Char) (h : hasSub ['.', 'g', 'z'] stem = false) :
    takeUntilSub ['.', 'g', 'z'] (stem ++ ['.', 'g', 'z']) = stem := by
  induction stem with
  | nil => decide
  | cons c t ih =>
    simp only [hasSub, Bool.or_eq_false_iff] at h
    have h3 := gz_isPrefixOf_append c t h.1
    rw [List.cons_append] at h3 ⊢
    simp only [takeUntilSub]
    rw [h3]
    simp [ih h.2]

/-- C9 counterexample: for the source `d/a.gz.fna.gz` the code truncates the
basename at the FIRST ".gz" occurrence, producing `out/9606_a` instead of the
claimed `out/9606_a.gz.fna` (basename with the `.gz` suffix removed), and the
function returns the integer 0, not the destination path. -/
theorem editFasta_dest_counterexample :
    (editFasta "d/a.gz.fna.gz" "out" "9606" "Homo sapiens" "").1 = "out/9606_a" ∧
    ("out/9606_a" : String) ≠ "out/9606_a.gz.fna" ∧
    (editFasta "d/a.gz.fna.gz" "out" "9606" "Homo sapiens" "").2.2 = 0 := by decide

/-- C9 (amended): `editFasta` always returns 0 (not the destination path);
the file is placed in the destination directory under
`taxid_<basename>` for a non-`.gz` source, and under
`taxid_<basename truncated at its first ".gz" occurrence>` for a `.gz`
source -- which equals suffix removal whenever ".gz" occurs only as the
suffix. -/
theorem editFasta_dest_and_return (infasta outdir taxid taxname fastaData : String) :
    (editFasta infasta outdir taxid taxname fastaData).2.2 = 0 ∧
    (List.isSuffixOf ['.', 'g', 'z'] infasta.data = false →
      (editFasta infasta outdir taxid taxname fastaData).1 =
        outdir ++ "/" ++ taxid ++ "_" ++ pyBasename infasta) ∧
    (∀ stem : List Char, List.isSuffixOf ['.', 'g', 'z'] infasta.data = true →
      (pyBasename infasta).data = stem ++ ['.', 'g', 'z'] →
      hasSub ['.', 'g', 'z'] stem = false →
      (editFasta infasta outdir taxid taxname fastaData).1 =
        outdir ++ "/" ++ taxid ++ "_" ++ String.mk stem) := by
  refine ⟨rfl, ?_, ?_⟩
  · intro hgz
    simp [editFasta, hgz]
  · intro stem hgz hbase hstem
    simp [editFasta, hgz, gzSplitHead, hbase, takeUntilSub_gz stem hstem]

/-- Witness for C9 (amended) on a single-suffix gzip name. -/
theorem editFasta_dest_and_return_witness :
    (editFasta "d/sample.fna.gz" "o" "5" "N" "x").2.2 = 0 ∧
    (editFasta "d/sample.fna.gz" "o" "5" "N" "x").1 =
      "o" ++ "/" ++ "5" ++ "_" ++ String.mk "sample.fna".data :=
  ⟨(editFasta_dest_and_return "d/sample.fna.gz" "o" "5" "N" "x").1,
   (editFasta_dest_and_return "d/sample.fna.gz" "o" "5" "N" "x").2.2 "sample.fna".data
     (by decide) (by decide) (by decide)⟩

/-- C2 counterexample: for a fasta whose taxon "Foo_bar" is unresolvable, the
file is recorded in the fasta dict and no rewritten fasta is produced, but --
contrary to the claim -- the scaffold ids ARE appended to the scaffold map
(under the key `None`, because the collection loop precedes the
`taxid == None` check), and they DO appear in the written seqid2taxid.map as
lines with the text "None" in the taxid column. -/
theorem processFasta_unresolved_counterexample :
    (processFasta "wd" "Foo_bar" none "g.fa" "" ["s1"]
        ⟨[⟨1, "Foo", "", "scientific name"⟩], [], [], [], []⟩).fastaDict =
      [("Foo_bar", ["g.fa"])] ∧
    (processFasta "wd" "Foo_bar" none "g.fa" "" ["s1"]
        ⟨[⟨1, "Foo", "", "scientific name"⟩], [], [], [], []⟩).scaffoldMap =
      [(none, ["s1"])] ∧
    (processFasta "wd" "Foo_bar" none "g.fa" "" ["s1"]
        ⟨[⟨1, "Foo", "", "scientific name"⟩], [], [], [], []⟩).scaffoldMap ≠ [] ∧
    writeSeq2taxidLines (processFasta "wd" "Foo_bar" none "g.fa" "" ["s1"]
        ⟨[⟨1, "Foo", "", "scientific name"⟩], [], [], [], []⟩).scaffoldMap =
      ["s1\tNone"] ∧
    (processFasta "wd" "Foo_bar" none "g.fa" "" ["s1"]
        ⟨[⟨1, "Foo", "", "scientific name"⟩], [], [], [], []⟩).editedFastas = [] := by
  decide

/-- C2 (amended): when the taxon of a fasta file cannot be resolved, the
per-file step still records the path under the fasta dict, appends the
scaffold ids to the scaffold map under the key `None` (so they appear in the
written seqid2taxid.map with taxid rendered "None"), produces no rewritten
fasta, leaves the tables unchanged, and returns normally so the batch
continues. -/
theorem processFasta_unresolved (outdir taxname : String) (mother : Option String)
    (infasta fastaContent : String) (ids : List String) (st : TaxState)
    (h : search_taxon (pyUnderscoreToSpace taxname) st.names = none) :
    processFasta outdir taxname mother infasta fastaContent ids st =
      { st with fastaDict := ddExtend st.fastaDict taxname [infasta]
                scaffoldMap := ddExtend st.scaffoldMap none ids } := by
  simp [processFasta, getTaxidNames, h]

/-- Witness for C2 (amended) at a concrete unresolvable input. -/
theorem processFasta_unresolved_witness :
    processFasta "wd" "Bar_baz" none "f.fa" "" ["r1", "r2"]
        ⟨[⟨1, "Foo", "", "scientific name"⟩], [], [], [], []⟩ =
      { names := [⟨1, "Foo", "", "scientific name"⟩], nodes := [],
        scaffoldMap := ddExtend [] none ["r1", "r2"],
        fastaDict := ddExtend [] "Bar_baz" ["f.fa"], editedFastas := [] } :=
  processFasta_unresolved "wd" "Bar_baz" none "f.fa" "" ["r1", "r2"]
    ⟨[⟨1, "Foo", "", "scientific name"⟩], [], [], [], []⟩ (by decide)

/-- C8: in the dump-file write step the two renames to `.old` come first (by
construction of `dumpWriteOps`, mirroring source order), and consequently in
every intermediate file-system state -- from the initial one through the
final write -- the previous names content and the previous nodes content each
still exist at some path.  The path-distinctness hypotheses rule out
degenerate argument aliasing and hold for any ordinary pair of dump paths. -/
theorem dumpWrite_preserves_old (fs0 : String → Option String)
    (names_path nodes_path newNames newNodes mapContent oldNames oldNodes : String)
    (h0n : fs0 names_path = some oldNames)
    (h0d : fs0 nodes_path = some oldNodes)
    (hnm : names_path ≠ nodes_path)
    (hA1 : namesOldPath names_path ≠ nodes_path)
    (hA2 : namesOldPath names_path ≠ nodesOldPath names_path)
    (hA3 : namesOldPath names_path ≠ newNamesPath names_path)
    (hA4 : namesOldPath names_path ≠ newNodesPath names_path)
    (hA5 : namesOldPath names_path ≠ seqidMapPath names_path)
    (hB3 : nodesOldPath names_path ≠ newNamesPath names_path)
    (hB4 : nodesOldPath names_path ≠ newNodesPath names_path)
    (hB5 : nodesOldPath names_path ≠ seqidMapPath names_path) :
    ∀ s ∈ dumpWriteStates fs0 names_path nodes_path newNames newNodes mapContent,
      (∃ p, s p = some oldNames) ∧ (∃ p, s p = some oldNodes) := by
  intro s hs
  simp only [dumpWriteStates, dumpWriteOps, List.scanl, List.mem_cons,
    List.not_mem_nil, or_false] at hs
  rcases hs with rfl | rfl | rfl | rfl | rfl | rfl
  · exact ⟨⟨names_path, h0n⟩, ⟨nodes_path, h0d⟩⟩
  · constructor
    · exact ⟨namesOldPath names_path, by simp [applyOp, h0n]⟩
    · exact ⟨nodes_path, by simp [applyOp, h0d, Ne.symm hA1, Ne.symm hnm]⟩
  · constructor
    · exact ⟨namesOldPath names_path, by simp [applyOp, h0n, hA2, hA1]⟩
    · exact ⟨nodesOldPath names_path, by simp [applyOp, h0d, Ne.symm hA1, Ne.symm hnm]⟩
  · constructor
    · exact ⟨namesOldPath names_path, by simp [applyOp, h0n, hA2, hA1, hA3]⟩
    · exact ⟨nodesOldPath names_path,
        by simp [applyOp, h0d, Ne.symm hA1, Ne.symm hnm, hB3]⟩
  · constructor
    · exact ⟨namesOldPath names_path, by simp [applyOp, h0n, hA2, hA1, hA3, hA4]⟩
    · exact ⟨nodesOldPath names_path,
        by simp [applyOp, h0d, Ne.symm hA1, Ne.symm hnm, hB3, hB4]⟩
  · constructor
    · exact ⟨namesOldPath names_path,
        by simp [applyOp, h0n, hA2, hA1, hA3, hA4, hA5]⟩
    · exact ⟨nodesOldPath names_path,
        by simp [applyOp, h0d, Ne.symm hA1, Ne.symm hnm, hB3, hB4, hB5]⟩

/-- Witness for C8 at concrete paths and contents, instantiated at the
intermediate state reached after both renames. -/
theorem dumpWrite_preserves_old_witness :
    (∃ p, applyOp
        (applyOp
          (fun p => if p = "/db/names.dmp" then some "oldN"
            else if p = "/db/nodes.dmp" then some "oldD" else none)
          (FsOp.rename "/db/names.dmp" (namesOldPath "/db/names.dmp")))
        (FsOp.rename "/db/nodes.dmp" (nodesOldPath "/db/names.dmp")) p = some "oldN") ∧
    (∃ p, applyOp
        (applyOp
          (fun p => if p = "/db/names.dmp" then some "oldN"
            else if p = "/db/nodes.dmp" then some "oldD" else none)
          (FsOp.rename "/db/names.dmp" (namesOldPath "/db/names.dmp")))
        (FsOp.rename "/db/nodes.dmp" (nodesOldPath "/db/names.dmp")) p = some "oldD") :=
  dumpWrite_preserves_old
    (fun p => if p = "/db/names.dmp" then some "oldN"
      else if p = "/db/nodes.dmp" then some "oldD" else none)
    "/db/names.dmp" "/db/nodes.dmp" "newN" "newD" "mapC" "oldN" "oldD"
    (by decide) (by decide) (by decide) (by decide) (by decide) (by decide)
    (by decide) (by decide) (by decide) (by decide) (by decide)
    _ (by simp [dumpWriteStates, dumpWriteOps, List.scanl])

/-- Stripping ignores a trailing whitespace character. -/
theorem pyStripChars_append_space (xs : List Char) (c : Char) (hc : pySpaceChar c = true) :
    pyStripChars (xs ++ [c]) = pyStripChars xs := by
  unfold pyStripChars
  rw [List.dropWhile_append]
  by_cases he : (xs.dropWhile pySpaceChar).isEmpty
  · have hnil : xs.dropWhile pySpaceChar = [] := List.isEmpty_iff.mp he
    simp [he, List.dropWhile_cons, hc, hnil]
  · simp only [he, if_false, Bool.false_eq_true]
    rw [List.reverse_append]
    simp [List.dropWhile_cons, hc]

/-- Stripping ignores a leading whitespace character. -/
theorem pyStripChars_cons_space (c : Char) (xs : List Char) (hc : pySpaceChar c = true) :
    pyStripChars (c :: xs) = pyStripChars xs := by
  simp [pyStripChars, List.dropWhile_cons, hc]

/-- Parsing a field whose raw text ends in a tab strips the tab. -/
theorem parseField_append_tab (p : List Char) :
    parseField (p ++ ['\t']) = some (pyStripChars p) := by
  have hne : ¬ (p ++ ['\t'] = []) := by simp
  rw [parseField, if_neg hne, pyStripChars_append_space p '\t' (by decide)]

/-- Parsing a field whose raw text starts with a tab strips the tab. -/
theorem parseField_cons_tab (l : List Char) :
    parseField ('\t' :: l) = some (pyStripChars l) := by
  rw [parseField, if_neg (by simp), pyStripChars_cons_space '\t' l (by decide)]

/-- A parsed field value is the stripped raw text. -/
theorem parseField_some_elim (f v : List Char) (h : parseField f = some v) :
    pyStripChars f = v := by
  by_cases he : f = []
  · rw [he] at h
    simp [parseField] at h
  · rw [parseField, if_neg he] at h
    exact Option.some.inj h

/-- One unfolding step of the splitter at a non-separator head. -/
theorem splitSep_cons_ne (sep c : Char) (l : List Char) (h : ¬ c = sep) :
    splitSep sep (c :: l) =
      match splitSep sep l with
      | [] => [[c]]
      | f :: r => (c :: f) :: r := by
  simp [splitSep, h]

/-- Splitting the tab-pipe-tab join of pipe-free stripped parts (with the
empty trailing part appended) and parsing each raw field recovers the parts,
except that the trailing field comes back as `some []` rather than missing. -/
theorem parse_write_parts (qs : List (List Char))
    (hq : ∀ q ∈ qs, pyStripChars q = q ∧ '|' ∉ q) (hne : qs ≠ []) :
    (splitSep '|' (joinSep ['\t', '|', '\t'] (qs ++ [[]]))).map parseField =
      qs.map some ++ [some []] := by
  induction qs with
  | nil => exact absurd rfl hne
  | cons q qs2 ih =>
    have hq1 := hq q (by simp)
    have hnp : '|' ∉ q ++ ['\t'] := by
      intro hm
      rcases List.mem_append.mp hm with h1 | h2
      · exact hq1.2 h1
      · exact absurd (List.mem_singleton.mp h2) (by decide)
    cases qs2 with
    | nil =>
      have hj : joinSep ['\t', '|', '\t'] ([q] ++ [[]]) =
          (q ++ ['\t']) ++ '|' :: ['\t'] := by
        simp [joinSep]
      rw [hj, splitSep_append_sep '|' _ _ hnp, splitSep_no_sep '|' ['\t'] (by decide)]
      simp only [List.map_cons, List.map_nil]
      rw [parseField_append_tab, hq1.1]
      rfl
    | cons q2 qs3 =>
      have hq2 : ∀ x ∈ q2 :: qs3, pyStripChars x = x ∧ '|' ∉ x :=
        fun x hx => hq x (by simp [hx])
      have ihr := ih hq2 (by simp)
      have hj : joinSep ['\t', '|', '\t'] ((q :: q2 :: qs3) ++ [[]]) =
          (q ++ ['\t']) ++ '|' :: '\t' :: joinSep ['\t', '|', '\t'] ((q2 :: qs3) ++ [[]]) := by
        simp [joinSep]
      rw [hj, splitSep_append_sep '|' _ _ hnp]
      obtain ⟨f, r, hfr⟩ := List.exists_cons_of_ne_nil
        (splitSep_ne_nil '|' (joinSep ['\t', '|', '\t'] ((q2 :: qs3) ++ [[]])))
      have hne2 : ¬ ('\t' : Char) = '|' := by decide
      have hstep : splitSep '|' ('\t' :: joinSep ['\t', '|', '\t'] ((q2 :: qs3) ++ [[]])) =
          ('\t' :: f) :: r := by
        rw [splitSep_cons_ne '|' '\t' _ hne2, hfr]
      rw [hstep]
      rw [hfr] at ihr
      simp only [List.map_cons] at ihr ⊢
      injection ihr with hhead htail
      rw [parseField_append_tab, hq1.1, parseField_cons_tab,
        parseField_some_elim f q2 hhead, htail]
      rfl

/-- Characters of a join come from the separator or from one of the parts. -/
theorem mem_joinSep (sep : List Char) (ps : List (List Char)) (c : Char)
    (hc : c ∈ joinSep sep ps) : c ∈ sep ∨ ∃ p ∈ ps, c ∈ p := by
  induction ps with
  | nil => simp [joinSep] at hc
  | cons p ps2 ih =>
    cases ps2 with
    | nil => exact Or.inr ⟨p, by simp, by simpa [joinSep] using hc⟩
    | cons p2 ps3 =>
      have hj : joinSep sep (p :: p2 :: ps3) = p ++ sep ++ joinSep sep (p2 :: ps3) := by
        simp [joinSep]
      rw [hj] at hc
      rcases List.mem_append.mp hc with h1 | h2
      · rcases List.mem_append.mp h1 with ha | hb
        · exact Or.inr ⟨p, by simp, ha⟩
        · exact Or.inl hb
      · rcases ih h2 with hs | ⟨x, hx, hcx⟩
        · exact Or.inl hs
        · exact Or.inr ⟨x, List.mem_cons_of_mem p hx, hcx⟩

/-- A serialized row contains no newline when its informative fields do not. -/
theorem writeDmpRow_no_newline (row : List (Option (List Char)))
    (h : ∀ f ∈ row.dropLast, '\n' ∉ fieldStr f) : '\n' ∉ writeDmpRow row := by
  intro hc
  rcases mem_joinSep _ _ _ hc with hs | ⟨p, hp, hcp⟩
  · exact absurd hs (by decide)
  · rcases List.mem_append.mp hp with h1 | h2
    · rw [← List.map_dropLast] at h1
      rcases List.mem_map.mp h1 with ⟨f, hf, rfl⟩
      exact h f hf hcp
    · rw [List.mem_singleton.mp h2] at hcp
      simp at hcp

/-- A tab-pipe-tab join of at least two parts is nonempty. -/
theorem joinSep_tpt_ne_nil (ps : List (List Char)) (h : 2 ≤ ps.length) :
    joinSep ['\t', '|', '\t'] ps ≠ [] := by
  match ps with
  | p :: q :: ps2 => simp [joinSep]
  | [] => simp at h
  | [p] => simp at h

/-- A serialized row of a table row with at least two fields is a nonblank
line. -/
theorem writeDmpRow_ne_nil (row : List (Option (List Char))) (h : 2 ≤ row.length) :
    writeDmpRow row ≠ [] := by
  apply joinSep_tpt_ne_nil
  simp only [List.length_append, List.length_dropLast, List.length_map,
    List.length_cons, List.length_nil]
  omega

/-- Splitting the serialized table on newlines recovers the serialized rows
followed by one empty part (from the final newline). -/
theorem splitSep_writeDmpText (tbl : List (List (Option (List Char))))
    (h : ∀ row ∈ tbl, '\n' ∉ writeDmpRow row) :
    splitSep '\n' (writeDmpText tbl) = tbl.map writeDmpRow ++ [[]] := by
  induction tbl with
  | nil => rfl
  | cons row rest ih =>
    have h2 : ∀ r2 ∈ rest, '\n' ∉ writeDmpRow r2 := fun r2 hr2 => h r2 (by simp [hr2])
    have hw : writeDmpText (row :: rest) = writeDmpRow row ++ '\n' :: writeDmpText rest := rfl
    rw [hw, splitSep_append_sep '\n' _ _ (h row (by simp)), ih h2]
    simp

/-- Parsing a serialized row recovers the informative fields and turns the
trailing field into the empty string. -/
theorem parseDmpLine_writeDmpRow (row : List (Option (List Char)))
    (hlen : 2 ≤ row.length)
    (hf : ∀ f ∈ row.dropLast, f ≠ none ∧ pyStripChars (fieldStr f) = fieldStr f ∧
      '|' ∉ fieldStr f ∧ '\n' ∉ fieldStr f) :
    parseDmpLine (writeDmpRow row) = row.dropLast ++ [some []] := by
  unfold parseDmpLine writeDmpRow
  rw [← List.map_dropLast]
  have hq : ∀ q ∈ row.dropLast.map fieldStr, pyStripChars q = q ∧ '|' ∉ q := by
    intro q hq0
    rcases List.mem_map.mp hq0 with ⟨f, hfm, rfl⟩
    exact ⟨(hf f hfm).2.1, (hf f hfm).2.2.1⟩
  have hne : row.dropLast.map fieldStr ≠ [] := by
    intro e
    have := congrArg List.length e
    simp only [List.length_map, List.length_dropLast, List.length_nil] at this
    omega
  rw [parse_write_parts (row.dropLast.map fieldStr) hq hne]
  congr 1
  rw [List.map_map]
  have heach : ∀ f ∈ row.dropLast, (some ∘ fieldStr) f = id f := by
    intro f hfm
    rcases f with _ | s
    · exact absurd rfl (hf none hfm).1
    · rfl
  rw [List.map_congr_left heach, List.map_id]

/-- C5 counterexample: for the well-formed names line
`1 TAB | TAB all TAB | TAB TAB | TAB synonym TAB |`, the round trip changes
the trailing field from missing (pandas NaN, raw empty) to the empty string
(raw single tab), so `parse(serialize(parse(x)))` differs from `parse(x)`. -/
theorem readDmp_roundtrip_counterexample :
    readDmpText (writeDmpText (readDmpText ("1\t|\tall\t|\t\t|\tsynonym\t|").data)) ≠
      readDmpText ("1\t|\tall\t|\t\t|\tsynonym\t|").data := by decide

/-- C5 (amended): for every table whose rows have at least two fields, whose
informative (non-trailing) fields are present, stripped, and free of pipes
and newlines -- exactly the shape produced by parsing a well-formed dump --
the serialize-then-parse round trip preserves every informative field and
returns the trailing field as the empty string instead of missing; a second
round trip is therefore the identity. -/
theorem readDmp_writeDmp_roundtrip (tbl : List (List (Option (List Char))))
    (hlen : ∀ row ∈ tbl, 2 ≤ row.length)
    (hf : ∀ row ∈ tbl, ∀ f ∈ row.dropLast, f ≠ none ∧
      pyStripChars (fieldStr f) = fieldStr f ∧ '|' ∉ fieldStr f ∧ '\n' ∉ fieldStr f) :
    readDmpText (writeDmpText tbl) = tbl.map (fun row => row.dropLast ++ [some []]) := by
  have hnl : ∀ row ∈ tbl, '\n' ∉ writeDmpRow row := by
    intro row hrow
    exact writeDmpRow_no_newline row (fun f hfm => (hf row hrow f hfm).2.2.2)
  unfold readDmpText
  rw [splitSep_writeDmpText tbl hnl, List.filter_append]
  have hfilter1 : (tbl.map writeDmpRow).filter (fun l => !l.isEmpty) = tbl.map writeDmpRow := by
    rw [List.filter_eq_self]
    intro a ha
    rcases List.mem_map.mp ha with ⟨row, hrow, rfl⟩
    simpa [List.isEmpty_iff] using writeDmpRow_ne_nil row (hlen row hrow)
  rw [hfilter1, show ([[]] : List (List Char)).filter (fun l => !l.isEmpty) = [] from rfl,
    List.append_nil, List.map_map]
  exact List.map_congr_left
    (fun row hrow => parseDmpLine_writeDmpRow row (hlen row hrow) (hf row hrow))

/-- Witness for C5 (amended) on a one-row, three-field table. -/
theorem readDmp_writeDmp_roundtrip_witness :
    readDmpText (writeDmpText [[some ['1'], some ['x'], none]]) =
      [[some ['1'], some ['x'], none]].map (fun row => row.dropLast ++ [some []]) :=
  readDmp_writeDmp_roundtrip [[some ['1'], some ['x'], none]] (by decide) (by decide)

end Taxadd
